import Mathlib

/-!
Verification of the transport layer of terraform-provider-openclaw
(`internal/client`): the RFC-7396-style merge-patch engine, the
file-backed document transport (`FileClient`), the section helpers,
the WebSocket handshake payload construction, the dial/backoff loop,
and the request-correlation discipline of the session transport.

Go's dynamic `any` JSON trees are embedded as the inductive `Json`;
Go's `map[string]any` becomes an association list `JObj` (Go maps are
unordered and cannot hold duplicate keys, so association lists with
no duplicate keys, compared via lookup, are a faithful representation;
assignment `m[k] = v` replaces the binding of `k`, `delete(m, k)`
removes it).
-/

/-- JSON-compatible values, as produced by Go's `encoding/json`
unmarshalling into `any`: null, booleans, numbers, strings, arrays and
string-keyed objects. -/
inductive Json where
  | null : Json
  | bool (b : Bool) : Json
  | num (n : Int) : Json
  | str (s : String) : Json
  | arr (xs : List Json) : Json
  | obj (fields : List (String × Json)) : Json
deriving Repr

/-- A Go `map[string]any` holding JSON values: an association list of
string keys to values. -/
abbrev JObj := List (String × Json)

/-- Lookup in a Go map (`v, ok := m[k]`): the first binding of the key. -/
def objGet (fs : JObj) (k : String) : Option Json :=
  match fs with
  | [] => none
  | (k', v) :: rest => if k' = k then some v else objGet rest k

/-- Go map assignment `m[k] = v`: replace the existing binding of `k`
in place, or append a new binding. -/
def objInsert (k : String) (v : Json) (fs : JObj) : JObj :=
  match fs with
  | [] => [(k, v)]
  | (k', v') :: rest => if k' = k then (k, v) :: rest else (k', v') :: objInsert k v rest

/-- Go `delete(m, k)`: remove the binding of `k`. -/
def objErase (k : String) (fs : JObj) : JObj :=
  match fs with
  | [] => []
  | (k', v') :: rest => if k' = k then objErase k rest else (k', v') :: objErase k rest

/-- The keys of an object are pairwise distinct (always true of a real
Go map; association lists with duplicate keys do not arise from
`encoding/json`). -/
def keyNodup : JObj → Bool
  | [] => true
  | (k, _) :: rest => !(rest.any (fun p => p.1 == k)) && keyNodup rest

mutual
/-- No object anywhere in the value has duplicate keys: the
well-formedness invariant of values unmarshalled from JSON. -/
def Json.wf : Json → Bool
  | .obj fs => keyNodup fs && wfFields fs
  | .arr xs => wfElems xs
  | _ => true

/-- `Json.wf` on every field value of an object. -/
def wfFields : List (String × Json) → Bool
  | [] => true
  | (_, v) :: rest => Json.wf v && wfFields rest

/-- `Json.wf` on every element of an array. -/
def wfElems : List Json → Bool
  | [] => true
  | v :: rest => Json.wf v && wfElems rest
end

mutual
/-- The value contains no `null` at any object key, at any depth
(a patch with no null-valued keys). -/
def Json.noNulls : Json → Bool
  | .obj fs => noNullFields fs
  | _ => true

/-- No field of the object is `null`, recursively. -/
def noNullFields : List (String × Json) → Bool
  | [] => true
  | (_, v) :: rest =>
    (match v with | .null => false | _ => true) && Json.noNulls v && noNullFields rest
end

mutual
/-- Transcription of `mergePatch` (internal/client, RFC 7396 JSON Merge
Patch semantics): iterate over the patch entries; a `null` patch value
deletes the key; when both patch value and existing target value are
maps, recurse; otherwise the patch value replaces outright. -/
def mergePatch (target : JObj) (patch : JObj) : JObj :=
  match patch with
  | [] => target
  | (key, patchVal) :: rest => mergePatch (mergeStep target key patchVal) rest

/-- One iteration of the `mergePatch` loop body, for the patch entry
`(key, patchVal)`. -/
def mergeStep (target : JObj) (key : String) (patchVal : Json) : JObj :=
  match patchVal with
  | .null => objErase key target
  | .obj patchMap =>
    match objGet target key with
    | none => objInsert key (.obj patchMap) target
    | some targetVal =>
      match targetVal with
      | .obj targetMap => objInsert key (.obj (mergePatch targetMap patchMap)) target
      | _ => objInsert key (.obj patchMap) target
  | _ => objInsert key patchVal target
end

/-- Top-level entry of `mergePatch`: a `nil` Go map (`target == nil`)
is replaced by a freshly made empty map before merging. -/
def mergePatchTop (target : Option JObj) (patch : JObj) : JObj :=
  match target with
  | none => mergePatch [] patch
  | some t => mergePatch t patch

@[simp] theorem objGet_objInsert_self (t : JObj) (k : String) (v : Json) :
    objGet (objInsert k v t) k = some v := by
  induction t with
  | nil => simp [objInsert, objGet]
  | cons hd tl ih =>
    obtain ⟨k', v'⟩ := hd
    by_cases h : k' = k <;> simp [objInsert, objGet, h, ih]

theorem objGet_objInsert_ne (t : JObj) {k' k : String} (v : Json) (h : k' ≠ k) :
    objGet (objInsert k' v t) k = objGet t k := by
  induction t with
  | nil => simp [objInsert, objGet, h]
  | cons hd tl ih =>
    obtain ⟨k₀, v₀⟩ := hd
    by_cases h0 : k₀ = k' <;> simp [objInsert, objGet, h0, ih]
    · subst h0; simp [h]

@[simp] theorem objGet_objErase_self (t : JObj) (k : String) :
    objGet (objErase k t) k = none := by
  induction t with
  | nil => simp [objErase, objGet]
  | cons hd tl ih =>
    obtain ⟨k', v'⟩ := hd
    by_cases h : k' = k <;> simp [objErase, objGet, h, ih]

theorem objGet_objErase_ne (t : JObj) {k' k : String} (h : k' ≠ k) :
    objGet (objErase k' t) k = objGet t k := by
  induction t with
  | nil => simp [objErase, objGet]
  | cons hd tl ih =>
    obtain ⟨k₀, v₀⟩ := hd
    by_cases h0 : k₀ = k'
    · subst h0; simp [objErase, objGet, ih, h]
    · by_cases h1 : k₀ = k <;> simp [objErase, objGet, h0, h1, ih, h.symm]

theorem objGet_mergeStep_ne (t : JObj) {k' k : String} (v : Json) (h : k' ≠ k) :
    objGet (mergeStep t k' v) k = objGet t k := by
  cases v with
  | null => simp [mergeStep, objGet_objErase_ne t h]
  | obj pm =>
    cases hg : objGet t k' with
    | none => simp [mergeStep, hg, objGet_objInsert_ne t _ h]
    | some tv => cases tv <;> simp [mergeStep, hg, objGet_objInsert_ne t _ h]
  | bool b => simp [mergeStep, objGet_objInsert_ne t _ h]
  | num n => simp [mergeStep, objGet_objInsert_ne t _ h]
  | str s => simp [mergeStep, objGet_objInsert_ne t _ h]
  | arr xs => simp [mergeStep, objGet_objInsert_ne t _ h]

theorem objGet_eq_none_of_any_eq_false {p : JObj} {k : String}
    (h : p.any (fun e => e.1 == k) = false) : objGet p k = none := by
  induction p with
  | nil => simp [objGet]
  | cons hd tl ih =>
    obtain ⟨k', v'⟩ := hd
    simp only [List.any_cons, Bool.or_eq_false_iff, beq_eq_false_iff_ne] at h
    simp [objGet, h.1, ih h.2]

/-- When a key does not occur in the patch, `mergePatch` leaves its
binding in the target untouched. -/
theorem objGet_mergePatch_of_not_mem (t : JObj) {p : JObj} {k : String}
    (h : p.any (fun e => e.1 == k) = false) :
    objGet (mergePatch t p) k = objGet t k := by
  induction p generalizing t with
  | nil => simp [mergePatch]
  | cons hd tl ih =>
    obtain ⟨k', v'⟩ := hd
    simp only [List.any_cons, Bool.or_eq_false_iff, beq_eq_false_iff_ne] at h
    rw [mergePatch, ih (mergeStep t k' v') h.2, objGet_mergeStep_ne t v' h.1]

/-- Complete characterization of a lookup in `mergePatch target patch`
for a patch whose keys are distinct (always true of a Go map):
a key not in the patch is untouched; a null patch value removes the
key; a patch map merges with a target map and replaces anything else;
any other patch value replaces outright. -/
theorem objGet_mergePatch (t : JObj) {p : JObj} (hp : keyNodup p = true) (k : String) :
    objGet (mergePatch t p) k =
      (match objGet p k with
       | none => objGet t k
       | some .null => none
       | some (.obj pm) =>
         (match objGet t k with
          | some (.obj tm) => some (.obj (mergePatch tm pm))
          | _ => some (.obj pm))
       | some v => some v) := by
  induction p generalizing t with
  | nil => simp [mergePatch, objGet]
  | cons hd tl ih =>
    obtain ⟨k', v'⟩ := hd
    simp only [keyNodup, Bool.and_eq_true, Bool.not_eq_true'] at hp
    by_cases hk : k' = k
    · subst hk
      rw [mergePatch, objGet_mergePatch_of_not_mem _ hp.1]
      cases v' with
      | null => simp [objGet, mergeStep]
      | obj pm =>
        cases hg : objGet t k' with
        | none => simp [objGet, mergeStep, hg]
        | some tv => cases tv <;> simp [objGet, mergeStep, hg]
      | bool b => simp [objGet, mergeStep]
      | num n => simp [objGet, mergeStep]
      | str s => simp [objGet, mergeStep]
      | arr xs => simp [objGet, mergeStep]
    · rw [mergePatch, ih (mergeStep t k' v') hp.2]
      simp [objGet, hk, objGet_mergeStep_ne t v' hk]

theorem objInsert_of_objGet {t : JObj} {k : String} {v : Json}
    (h : objGet t k = some v) : objInsert k v t = t := by
  induction t with
  | nil => simp [objGet] at h
  | cons hd tl ih =>
    obtain ⟨k₀, v₀⟩ := hd
    by_cases h0 : k₀ = k
    · subst h0
      simp [objGet] at h
      simp [objInsert, h]
    · simp only [objGet, if_neg h0] at h
      simp [objInsert, h0, ih h]

/-- C1: for every target map T and patch map P (with the distinct-key
invariant of Go maps), merge(T, P) follows the specified algorithm:
every null-valued key of P is removed from the result (no error when it
was absent from T); where both the patch value and the existing target
value are maps, the result is the recursive merge of the two sub-maps;
every other key of P gets P's value outright; keys of T not mentioned in
P are untouched; and a null T is treated as an empty map. -/
theorem mergePatch_follows_merge_spec (t p : JObj) (hp : keyNodup p = true) :
    (∀ k, objGet p k = some .null → objGet (mergePatch t p) k = none) ∧
    (∀ k pm tm, objGet p k = some (.obj pm) → objGet t k = some (.obj tm) →
      objGet (mergePatch t p) k = some (.obj (mergePatch tm pm))) ∧
    (∀ k v, objGet p k = some v → v ≠ .null →
      (∀ pm, v = .obj pm → ∀ tm, objGet t k ≠ some (.obj tm)) →
      objGet (mergePatch t p) k = some v) ∧
    (∀ k, objGet p k = none → objGet (mergePatch t p) k = objGet t k) ∧
    mergePatchTop none p = mergePatchTop (some []) p := by
  refine ⟨?_, ?_, ?_, ?_, rfl⟩
  · intro k hk
    rw [objGet_mergePatch t hp k, hk]
  · intro k pm tm hpk htk
    rw [objGet_mergePatch t hp k, hpk, htk]
  · intro k v hpk hnull hnotmm
    rw [objGet_mergePatch t hp k, hpk]
    cases v with
    | null => exact absurd rfl hnull
    | obj pm =>
      cases htk : objGet t k with
      | none => rfl
      | some tv =>
        cases tv with
        | obj tm => exact absurd htk (hnotmm pm rfl tm)
        | null => rfl
        | bool b => rfl
        | num n => rfl
        | str s => rfl
        | arr xs => rfl
    | bool b => rfl
    | num n => rfl
    | str s => rfl
    | arr xs => rfl
  · intro k hk
    rw [objGet_mergePatch t hp k, hk]

/-- A concrete target document exercising all merge cases. -/
def c1T : JObj := [("a", .num 1), ("m", .obj [("x", .num 1), ("y", .num 9)]), ("d", .num 4)]

/-- A concrete patch: deletes "d", recursively merges "m", adds "s". -/
def c1P : JObj := [("d", .null), ("m", .obj [("y", .num 2)]), ("s", .str "v")]

/-- Witness for `mergePatch_follows_merge_spec` at a concrete target and
patch. -/
theorem mergePatch_follows_merge_spec_witness :
    keyNodup c1P = true ∧
    ((∀ k, objGet c1P k = some .null → objGet (mergePatch c1T c1P) k = none) ∧
     (∀ k pm tm, objGet c1P k = some (.obj pm) → objGet c1T k = some (.obj tm) →
       objGet (mergePatch c1T c1P) k = some (.obj (mergePatch tm pm))) ∧
     (∀ k v, objGet c1P k = some v → v ≠ .null →
       (∀ pm, v = .obj pm → ∀ tm, objGet c1T k ≠ some (.obj tm)) →
       objGet (mergePatch c1T c1P) k = some v) ∧
     (∀ k, objGet c1P k = none → objGet (mergePatch c1T c1P) k = objGet c1T k) ∧
     mergePatchTop none c1P = mergePatchTop (some []) c1P) :=
  ⟨rfl, mergePatch_follows_merge_spec c1T c1P rfl⟩

/-- Well-formedness of a Go map value (no duplicate keys anywhere). -/
def objWf (o : JObj) : Bool := Json.wf (.obj o)

/-- The map holds no null-valued key at any depth. -/
def objNoNulls (o : JObj) : Bool := Json.noNulls (.obj o)

theorem objWf_cons {k : String} {v : Json} {rest : JObj}
    (h : objWf ((k, v) :: rest) = true) :
    rest.any (fun e => e.1 == k) = false ∧ Json.wf v = true ∧ objWf rest = true := by
  simp only [objWf, Json.wf, keyNodup, wfFields, Bool.and_eq_true,
    Bool.not_eq_true'] at h
  simp only [objWf, Json.wf, Bool.and_eq_true]
  exact ⟨h.1.1, h.2.1, h.1.2, h.2.2⟩

theorem objNoNulls_cons {k : String} {v : Json} {rest : JObj}
    (h : objNoNulls ((k, v) :: rest) = true) :
    v ≠ .null ∧ Json.noNulls v = true ∧ objNoNulls rest = true := by
  simp only [objNoNulls, Json.noNulls, noNullFields, Bool.and_eq_true] at h
  refine ⟨?_, h.1.2, ?_⟩
  · intro hv
    subst hv
    simpa using h.1.1
  · simp only [objNoNulls, Json.noNulls]
    exact h.2

theorem mergeStep_of_objGet_obj {t : JObj} {k : String} {q : JObj} (pm : JObj)
    (h : objGet t k = some (.obj q)) :
    mergeStep t k (.obj pm) = objInsert k (.obj (mergePatch q pm)) t := by
  rw [mergeStep, h]

theorem mergeStep_of_objGet_none {t : JObj} {k : String} (pm : JObj)
    (h : objGet t k = none) :
    mergeStep t k (.obj pm) = objInsert k (.obj pm) t := by
  rw [mergeStep, h]

theorem mergeStep_of_objGet_nonobj {t : JObj} {k : String} {tv : Json} (pm : JObj)
    (h : objGet t k = some tv) (htv : ∀ q : JObj, tv ≠ .obj q) :
    mergeStep t k (.obj pm) = objInsert k (.obj pm) t := by
  rw [mergeStep, h]
  cases tv with
  | obj q => exact absurd rfl (htv q)
  | null => rfl
  | bool b => rfl
  | num n => rfl
  | str s => rfl
  | arr xs => rfl

theorem mergeStep_bool (t : JObj) (k : String) (b : Bool) :
    mergeStep t k (.bool b) = objInsert k (.bool b) t := rfl

theorem mergeStep_num (t : JObj) (k : String) (n : Int) :
    mergeStep t k (.num n) = objInsert k (.num n) t := rfl

theorem mergeStep_str (t : JObj) (k : String) (s : String) :
    mergeStep t k (.str s) = objInsert k (.str s) t := rfl

theorem mergeStep_arr (t : JObj) (k : String) (xs : List Json) :
    mergeStep t k (.arr xs) = objInsert k (.arr xs) t := rfl

/-- When every entry of the patch is already present in the target with
exactly the patch's value, merging changes nothing (fuel-indexed form,
fuel bounding the patch size). -/
theorem mergePatch_absorb_aux :
    ∀ (n : Nat) (p t : JObj), sizeOf p ≤ n → objWf p = true → objNoNulls p = true →
      (∀ k v, objGet p k = some v → objGet t k = some v) →
      mergePatch t p = t := by
  intro n
  induction n with
  | zero =>
    intro p t hs _ _ _
    cases p with
    | nil => rw [mergePatch]
    | cons hd tl => simp at hs
  | succ n ih =>
    intro p t hs hwf hnn hsub
    cases p with
    | nil => rw [mergePatch]
    | cons hd rest =>
      obtain ⟨k, v⟩ := hd
      obtain ⟨hany, hwv, hwrest⟩ := objWf_cons hwf
      obtain ⟨hvnull, hnv, hnrest⟩ := objNoNulls_cons hnn
      have hget : objGet t k = some v := hsub k v (by simp [objGet])
      have hsub' : ∀ k' v', objGet rest k' = some v' → objGet t k' = some v' := by
        intro k' v' h'
        apply hsub
        by_cases hk : k = k'
        · subst hk
          rw [objGet_eq_none_of_any_eq_false hany] at h'
          cases h'
        · simpa [objGet, hk] using h'
      have hrest : sizeOf rest ≤ n := by
        simp only [List.cons.sizeOf_spec, Prod.mk.sizeOf_spec] at hs
        omega
      have hstep : mergeStep t k v = t := by
        cases v with
        | null => exact absurd rfl hvnull
        | obj pm =>
          have hpm : sizeOf pm ≤ n := by
            simp only [List.cons.sizeOf_spec, Prod.mk.sizeOf_spec,
              Json.obj.sizeOf_spec] at hs
            omega
          rw [mergeStep_of_objGet_obj pm hget,
            ih pm pm hpm hwv hnv (fun _ _ h => h)]
          exact objInsert_of_objGet hget
        | bool b => rw [mergeStep_bool]; exact objInsert_of_objGet hget
        | num m => rw [mergeStep_num]; exact objInsert_of_objGet hget
        | str s => rw [mergeStep_str]; exact objInsert_of_objGet hget
        | arr xs => rw [mergeStep_arr]; exact objInsert_of_objGet hget
      rw [mergePatch, hstep]
      exact ih rest t hrest hwrest hnrest hsub'

/-- When every entry of the patch is already present in the target with
exactly the patch's value, merging changes nothing. -/
theorem mergePatch_absorb (p t : JObj) (hw : objWf p = true)
    (hn : objNoNulls p = true)
    (hsub : ∀ k v, objGet p k = some v → objGet t k = some v) :
    mergePatch t p = t :=
  mergePatch_absorb_aux (sizeOf p) p t le_rfl hw hn hsub

/-- Applying a well-formed, null-free patch a second time changes
nothing (fuel-indexed form, fuel bounding the patch size). -/
theorem mergePatch_idem_aux :
    ∀ (n : Nat) (p t : JObj), sizeOf p ≤ n → objWf p = true → objNoNulls p = true →
      mergePatch (mergePatch t p) p = mergePatch t p := by
  intro n
  induction n with
  | zero =>
    intro p t hs _ _
    cases p with
    | nil => rw [mergePatch]
    | cons hd tl => simp at hs
  | succ n ih =>
    intro p t hs hwf hnn
    cases p with
    | nil => rw [mergePatch]
    | cons hd rest =>
      obtain ⟨k, v⟩ := hd
      obtain ⟨hany, hwv, hwrest⟩ := objWf_cons hwf
      obtain ⟨hvnull, hnv, hnrest⟩ := objNoNulls_cons hnn
      have hrest : sizeOf rest ≤ n := by
        simp only [List.cons.sizeOf_spec, Prod.mk.sizeOf_spec] at hs
        omega
      have hR : ∀ s : JObj,
          mergePatch s ((k, v) :: rest) = mergePatch (mergeStep s k v) rest :=
        fun s => by rw [mergePatch]
      rw [hR t, hR (mergePatch (mergeStep t k v) rest)]
      have hgR : objGet (mergePatch (mergeStep t k v) rest) k =
          objGet (mergeStep t k v) k :=
        objGet_mergePatch_of_not_mem _ hany
      have hstep : mergeStep (mergePatch (mergeStep t k v) rest) k v =
          mergePatch (mergeStep t k v) rest := by
        cases v with
        | null => exact absurd rfl hvnull
        | obj pm =>
          have hpm : sizeOf pm ≤ n := by
            simp only [List.cons.sizeOf_spec, Prod.mk.sizeOf_spec,
              Json.obj.sizeOf_spec] at hs
            omega
          have habs : (∀ q : JObj, objGet t k ≠ some (.obj q)) →
              mergeStep (mergePatch (mergeStep t k (.obj pm)) rest) k (.obj pm) =
                mergePatch (mergeStep t k (.obj pm)) rest := by
            intro hq
            have h2 : mergeStep t k (.obj pm) = objInsert k (.obj pm) t := by
              cases hgt : objGet t k with
              | none => exact mergeStep_of_objGet_none pm hgt
              | some tv =>
                refine mergeStep_of_objGet_nonobj pm hgt ?_
                intro q hqv
                exact hq q (hqv ▸ hgt)
            have h1 : objGet (mergePatch (mergeStep t k (.obj pm)) rest) k =
                some (.obj pm) := by
              rw [hgR, h2]
              exact objGet_objInsert_self t k _
            rw [mergeStep_of_objGet_obj pm h1,
              mergePatch_absorb pm pm hwv hnv (fun _ _ h => h)]
            exact objInsert_of_objGet h1
          cases hgt : objGet t k with
          | none =>
            exact habs (fun q hq => by rw [hgt] at hq; cases hq)
          | some tv =>
            cases tv with
            | obj tm =>
              have h1 : objGet (mergePatch (mergeStep t k (.obj pm)) rest) k =
                  some (.obj (mergePatch tm pm)) := by
                rw [hgR, mergeStep_of_objGet_obj pm hgt]
                exact objGet_objInsert_self t k _
              rw [mergeStep_of_objGet_obj pm h1, ih pm tm hpm hwv hnv]
              exact objInsert_of_objGet h1
            | null =>
              exact habs (fun q hq => by
                rw [hgt] at hq
                exact Json.noConfusion (Option.some.inj hq))
            | bool b =>
              exact habs (fun q hq => by
                rw [hgt] at hq
                exact Json.noConfusion (Option.some.inj hq))
            | num m =>
              exact habs (fun q hq => by
                rw [hgt] at hq
                exact Json.noConfusion (Option.some.inj hq))
            | str s =>
              exact habs (fun q hq => by
                rw [hgt] at hq
                exact Json.noConfusion (Option.some.inj hq))
            | arr xs =>
              exact habs (fun q hq => by
                rw [hgt] at hq
                exact Json.noConfusion (Option.some.inj hq))
        | bool b =>
          have h1 : objGet (mergePatch (mergeStep t k (.bool b)) rest) k =
              some (.bool b) := by
            rw [hgR, mergeStep_bool]
            exact objGet_objInsert_self t k _
          rw [mergeStep_bool]
          exact objInsert_of_objGet h1
        | num m =>
          have h1 : objGet (mergePatch (mergeStep t k (.num m)) rest) k =
              some (.num m) := by
            rw [hgR, mergeStep_num]
            exact objGet_objInsert_self t k _
          rw [mergeStep_num]
          exact objInsert_of_objGet h1
        | str s =>
          have h1 : objGet (mergePatch (mergeStep t k (.str s)) rest) k =
              some (.str s) := by
            rw [hgR, mergeStep_str]
            exact objGet_objInsert_self t k _
          rw [mergeStep_str]
          exact objInsert_of_objGet h1
        | arr xs =>
          have h1 : objGet (mergePatch (mergeStep t k (.arr xs)) rest) k =
              some (.arr xs) := by
            rw [hgR, mergeStep_arr]
            exact objGet_objInsert_self t k _
          rw [mergeStep_arr]
          exact objInsert_of_objGet h1
      rw [hstep]
      exact ih rest (mergeStep t k v) hrest hwrest hnrest


/-- C7: for every base document D and every patch P with no null-valued
keys (at any depth, and with the distinct-key invariant of Go maps),
merge(merge(D, P), P) == merge(D, P): applying the same patch a second
time changes nothing. -/
theorem mergePatch_idempotent (d p : JObj) (hw : objWf p = true)
    (hn : objNoNulls p = true) :
    mergePatch (mergePatch d p) p = mergePatch d p :=
  mergePatch_idem_aux (sizeOf p) p d le_rfl hw hn

/-- A concrete null-free patch with nested maps. -/
def c1PNoNull : JObj :=
  [("m", .obj [("y", .num 2), ("z", .obj [("w", .bool true)])]), ("s", .str "v")]

/-- Witness for `mergePatch_idempotent` at a concrete base and patch. -/
theorem mergePatch_idempotent_witness :
    objWf c1PNoNull = true ∧ objNoNulls c1PNoNull = true ∧
    mergePatch (mergePatch c1T c1PNoNull) c1PNoNull = mergePatch c1T c1PNoNull :=
  ⟨rfl, rfl, mergePatch_idempotent c1T c1PNoNull rfl rfl⟩

example : mergePatch [("a", .num 1)] [("a", .null)] = [] := by rfl
example : mergePatch [("a", .num 1), ("b", .num 2)] [("b", .num 3)] =
    [("a", .num 1), ("b", .num 3)] := by rfl
example : mergePatch [("a", .obj [("x", .num 1)])] [("a", .obj [("y", .num 2)])] =
    [("a", .obj [("x", .num 1), ("y", .num 2)])] := by rfl
example : mergePatch [("a", .str "s")] [("a", .obj [("n", .bool true)])] =
    [("a", .obj [("n", .bool true)])] := by rfl

/-! ## Document transport (`FileClient`, internal/client) -/

/-- The response of `config.get` (`ConfigPayload` in client.go): the
raw serialized document and its opaque content hash. -/
structure ConfigPayload where
  raw : String
  hash : String
deriving Repr

/-- The on-disk state of the config file: `none` when the file does not
exist, otherwise its content. -/
abbrev FileState := Option String

mutual
/-- Serialization of a JSON value. Models the output side of
`json.MarshalIndent`; the precise byte formatting (indentation,
escaping) is not relied on by any claim. -/
def Json.render : Json → String
  | .null => "null"
  | .bool b => if b then "true" else "false"
  | .num n => toString n
  | .str s => "\"" ++ s ++ "\""
  | .arr xs => "[" ++ renderElems xs ++ "]"
  | .obj fs => "\x7b" ++ renderFields fs ++ "\x7d"

/-- Comma-joined rendering of array elements. -/
def renderElems : List Json → String
  | [] => ""
  | v :: rest => Json.render v ++ (match rest with | [] => "" | _ => ",") ++ renderElems rest

/-- Comma-joined rendering of object fields. -/
def renderFields : List (String × Json) → String
  | [] => ""
  | (k, v) :: rest =>
    "\"" ++ k ++ "\":" ++ Json.render v ++ (match rest with | [] => "" | _ => ",") ++
      renderFields rest
end

/-- `json.MarshalIndent` on a document: always succeeds on values of
JSON shape, which is all this client ever passes. -/
def goMarshal (o : JObj) : Except String String := .ok (Json.render (.obj o))

/-- Transcription of `FileClient.getConfigLocked`: a missing file is
not an error and reads as the canonical empty document `"\x7b\x7d"` with
the digest of those two bytes; an existing file is returned verbatim
with the digest of its bytes. `hashFn` abstracts `hashBytes` (SHA-256
hex digest); OS read failures other than "does not exist" are outside
the model. -/
def getConfigLocked (hashFn : String → String) (file : FileState) : ConfigPayload :=
  match file with
  | none => { raw := "\x7b\x7d", hash := hashFn "\x7b\x7d" }
  | some data => { raw := data, hash := hashFn data }

/-- Transcription of `FileClient.PatchConfig`: under the client mutex,
read the current config, parse it, merge the patch, marshal the result,
and only then write the file. The caller-provided `baseHash` parameter
is deliberately ignored (`_ string` in the source). `parseFn` abstracts
`parseRawJSON` (`json.Unmarshal` into a possibly-nil Go map), `marshalFn`
abstracts `json.MarshalIndent`. Returns the file state after the call
and the call's result; on error nothing was written. -/
def patchConfig (parseFn : String → Except String (Option JObj))
    (marshalFn : JObj → Except String String) (hashFn : String → String)
    (file : FileState) (patch : JObj) (_baseHash : String) :
    FileState × Except String Unit :=
  let cfg := getConfigLocked hashFn file
  match parseFn cfg.raw with
  | .error e => (file, .error ("parsing existing config: " ++ e))
  | .ok existing =>
    let merged := mergePatchTop existing patch
    match marshalFn merged with
    | .error e => (file, .error ("marshaling config: " ++ e))
    | .ok out => (some out, .ok ())

/-- C2: for every current on-disk content C that parses as a JSON
object, every patch P and every baseHash h — including a hash captured
before an out-of-band modification of the file — `PatchConfig` succeeds
and rewrites the file with the serialization of the merge of the
freshly parsed current content and P; the outcome never depends on h. -/
theorem patchConfig_ignores_baseHash
    (parseFn : String → Except String (Option JObj)) (hashFn : String → String)
    (C : String) (P : JObj) (m : Option JObj) (h h' : String)
    (hparse : parseFn C = .ok m) :
    patchConfig parseFn goMarshal hashFn (some C) P h =
      (some (Json.render (.obj (mergePatchTop m P))), .ok ()) ∧
    patchConfig parseFn goMarshal hashFn (some C) P h =
      patchConfig parseFn goMarshal hashFn (some C) P h' := by
  refine ⟨?_, rfl⟩
  simp [patchConfig, getConfigLocked, hparse, goMarshal]

/-- A parse function for witnesses: accepts exactly the empty object. -/
def demoParse : String → Except String (Option JObj) :=
  fun s => if s = "\x7b\x7d" then .ok (some []) else .error "json unmarshal"

/-- A digest function for witnesses. -/
def demoHash : String → String := fun s => "sha256:" ++ s

/-- Witness for `patchConfig_ignores_baseHash` on a concrete file
state, patch and two different stale hashes. -/
theorem patchConfig_ignores_baseHash_witness :
    demoParse "\x7b\x7d" = .ok (some []) ∧
    (patchConfig demoParse goMarshal demoHash (some "\x7b\x7d") c1P "stale" =
      (some (Json.render (.obj (mergePatchTop (some []) c1P))), .ok ()) ∧
    patchConfig demoParse goMarshal demoHash (some "\x7b\x7d") c1P "stale" =
      patchConfig demoParse goMarshal demoHash (some "\x7b\x7d") c1P "fresh") :=
  ⟨rfl, patchConfig_ignores_baseHash demoParse demoHash "\x7b\x7d" c1P (some [])
    "stale" "fresh" rfl⟩

/-- C3: on a document transport whose file does not exist, `GetConfig`
succeeds and returns the canonical empty-document payload: raw equal to
the 2-byte string `"\x7b\x7d"` and hash equal to the digest of exactly
those two bytes, by the same digest function applied to existing file
contents. -/
theorem getConfigLocked_missing_file (hashFn : String → String) :
    getConfigLocked hashFn none = { raw := "\x7b\x7d", hash := hashFn "\x7b\x7d" } ∧
    ∀ data : String, getConfigLocked hashFn (some data) =
      { raw := data, hash := hashFn data } :=
  ⟨rfl, fun _ => rfl⟩

/-- Witness for `getConfigLocked_missing_file` at a concrete digest
function and file content. -/
theorem getConfigLocked_missing_file_witness :
    getConfigLocked demoHash none = { raw := "\x7b\x7d", hash := demoHash "\x7b\x7d" } ∧
    getConfigLocked demoHash (some "data") = { raw := "data", hash := demoHash "data" } :=
  ⟨(getConfigLocked_missing_file demoHash).1, (getConfigLocked_missing_file demoHash).2 "data"⟩

/-- The response of the health RPC (`HealthPayload` in client.go). -/
structure HealthPayload where
  ok : Bool
  timestamp : Int
  durationMs : Int
  defaultAgentID : String
  heartbeatSecs : Int
deriving Repr

/-- Transcription of `FileClient.Health`: unconditionally the fixed
"not available in file mode" error. -/
def fileHealth : Except String HealthPayload :=
  .error "health check not available in file mode (no running gateway)"

/-- C8: Health on the document transport always fails — it never
returns a health payload for any file state — and the failure is the
specific fixed "not available in file mode" error, which callers can
recognize as expected-but-unavailable rather than a general transport
failure. -/
theorem fileHealth_always_fails :
    fileHealth = .error "health check not available in file mode (no running gateway)" ∧
    fileHealth.isOk = false :=
  ⟨rfl, rfl⟩

/-- C10: whenever `PatchConfig` returns an error — the existing content
does not parse as a JSON object, or the merged document cannot be
serialized — the on-disk document is unchanged: the write is attempted
only after read, parse, merge and marshal all succeeded. -/
theorem patchConfig_error_leaves_file
    (parseFn : String → Except String (Option JObj))
    (marshalFn : JObj → Except String String) (hashFn : String → String)
    (file : FileState) (patch : JObj) (baseHash e : String)
    (herr : (patchConfig parseFn marshalFn hashFn file patch baseHash).2 = .error e) :
    (patchConfig parseFn marshalFn hashFn file patch baseHash).1 = file := by
  unfold patchConfig at herr ⊢
  cases hp : parseFn (getConfigLocked hashFn file).raw with
  | error e1 => simp [hp]
  | ok m =>
    cases hm : marshalFn (mergePatchTop m patch) with
    | error e2 => simp [hp, hm]
    | ok out => simp [hp, hm] at herr

/-- A parse function for witnesses that always fails. -/
def badParse : String → Except String (Option JObj) :=
  fun _ => .error "json unmarshal: bad"

/-- Witness for `patchConfig_error_leaves_file`: a file whose content
does not parse is left exactly as it was. -/
theorem patchConfig_error_leaves_file_witness :
    (patchConfig badParse goMarshal demoHash (some "not-json") c1P "h").2 =
      .error ("parsing existing config: " ++ "json unmarshal: bad") ∧
    (patchConfig badParse goMarshal demoHash (some "not-json") c1P "h").1 =
      some "not-json" :=
  ⟨rfl, patchConfig_error_leaves_file badParse goMarshal demoHash (some "not-json")
    c1P "h" ("parsing existing config: " ++ "json unmarshal: bad") rfl⟩

/-! ## Section helpers (client.go) -/

/-- Transcription of the key-path loop of `GetNestedSection`
(client.go): walk nested map lookups over the parsed document; a
missing segment means "not present" (`none`, not an error); a present
segment that is not a map is a type error ("config path ... is not an
object"; the exact message formatting is elided). -/
def getNestedLoop (current : JObj) : List String → Except String (Option JObj)
  | [] => .ok (some current)
  | key :: rest =>
    match objGet current key with
    | none => .ok none
    | some val =>
      match val with
      | .obj m => getNestedLoop m rest
      | _ => .error ("config path segment " ++ key ++ " is not an object")

/-- The spec's description of a fully resolving path: every segment
exists and is a map, ending at the sub-map `out`. -/
inductive Resolves : JObj → List String → JObj → Prop
  | nil (m : JObj) : Resolves m [] m
  | cons {m sub out : JObj} {k : String} {rest : List String} :
      objGet m k = some (.obj sub) → Resolves sub rest out → Resolves m (k :: rest) out

/-- The spec's description of an absent path: some resolving prefix is
followed by an absent segment. -/
inductive PathAbsent : JObj → List String → Prop
  | here {m : JObj} {k : String} {rest : List String} :
      objGet m k = none → PathAbsent m (k :: rest)
  | there {m sub : JObj} {k : String} {rest : List String} :
      objGet m k = some (.obj sub) → PathAbsent sub rest → PathAbsent m (k :: rest)

/-- The spec's description of a type-error path: some resolving prefix
is followed by a segment that exists but is not a map. -/
inductive PathTypeErr : JObj → List String → Prop
  | here {m : JObj} {v : Json} {k : String} {rest : List String} :
      objGet m k = some v → (∀ q : JObj, v ≠ .obj q) → PathTypeErr m (k :: rest)
  | there {m sub : JObj} {k : String} {rest : List String} :
      objGet m k = some (.obj sub) → PathTypeErr sub rest → PathTypeErr m (k :: rest)

/-- C9: for every parsed document and key path, the nested-section
getter walks nested map lookups and returns the sub-map when every
segment exists and is a map, "not present" (nil result, no error) when
some segment is absent, and a type error when a segment exists but its
value is not a map. -/
theorem getNestedSection_spec (m : JObj) (keys : List String) :
    (∀ out, Resolves m keys out → getNestedLoop m keys = .ok (some out)) ∧
    (PathAbsent m keys → getNestedLoop m keys = .ok none) ∧
    (PathTypeErr m keys → ∃ e, getNestedLoop m keys = .error e) := by
  induction keys generalizing m with
  | nil =>
    refine ⟨?_, ?_, ?_⟩
    · intro out h
      cases h
      rfl
    · intro h
      cases h
    · intro h
      cases h
  | cons k rest ih =>
    refine ⟨?_, ?_, ?_⟩
    · intro out h
      cases h with
      | cons hget hres =>
        rw [getNestedLoop, hget]
        exact (ih _).1 out hres
    · intro h
      cases h with
      | here hget => rw [getNestedLoop, hget]
      | there hget hab =>
        rw [getNestedLoop, hget]
        exact (ih _).2.1 hab
    · intro h
      cases h with
      | @here _ v _ _ hget hnv =>
        rw [getNestedLoop, hget]
        cases v with
        | obj q => exact absurd rfl (hnv q)
        | null => exact ⟨_, rfl⟩
        | bool b => exact ⟨_, rfl⟩
        | num n => exact ⟨_, rfl⟩
        | str s => exact ⟨_, rfl⟩
        | arr xs => exact ⟨_, rfl⟩
      | there hget htype =>
        rw [getNestedLoop, hget]
        exact (ih _).2.2 htype

/-- A concrete nested document for the section-helper witness. -/
def c9Sub : JObj := [("reactionNotifications", .str "own")]

/-- A concrete parsed document with a two-deep nested section. -/
def c9Doc : JObj := [("channels", .obj [("signal", .obj c9Sub)]), ("port", .num 18789)]

/-- Witness for `getNestedSection_spec`: the path channels.signal
resolves to the expected sub-map. -/
theorem getNestedSection_spec_witness :
    Resolves c9Doc ["channels", "signal"] c9Sub ∧
    getNestedLoop c9Doc ["channels", "signal"] = .ok (some c9Sub) :=
  have hres : Resolves c9Doc ["channels", "signal"] c9Sub :=
    .cons rfl (.cons rfl (.nil _))
  ⟨hres, (getNestedSection_spec c9Doc ["channels", "signal"]).1 c9Sub hres⟩

/-! ## Session transport handshake (ws.go) -/

/-- The fixed client identifier sent in the handshake (`clientID`). -/
def wsClientID : String := "cli"

/-- The fixed client mode sent in the handshake (`clientMode`). -/
def wsClientMode : String := "cli"

/-- The requested role (`role`). -/
def wsRole : String := "operator"

/-- The requested capability scopes (`scopes`). -/
def wsScopes : List String := ["operator.read", "operator.write", "operator.admin"]

/-- Transcription of the signed-payload construction in
`WSClient.handshake` (ws.go): the session identity (device ID) is the
hash of the fresh public key (`hashFn` abstracts SHA-256 hex, `pubKey`
the fresh key bytes), and the canonical pipe-delimited payload is the
v2 form exactly when a challenge nonce was received (non-empty string),
else the v1 form. Signing of the resulting string is abstracted. -/
def handshakeSignedPayload (hashFn : String → String) (pubKey : String)
    (signedAt : Int) (authToken : String) (challengeNonce : String) : String :=
  let deviceID := hashFn pubKey
  let scopeStr := String.intercalate "," wsScopes
  if challengeNonce != "" then
    "v2" ++ "|" ++ deviceID ++ "|" ++ wsClientID ++ "|" ++ wsClientMode ++ "|" ++
      wsRole ++ "|" ++ scopeStr ++ "|" ++ toString signedAt ++ "|" ++ authToken ++
      "|" ++ challengeNonce
  else
    "v1" ++ "|" ++ deviceID ++ "|" ++ wsClientID ++ "|" ++ wsClientMode ++ "|" ++
      wsRole ++ "|" ++ scopeStr ++ "|" ++ toString signedAt ++ "|" ++ authToken

/-- Remaining fields of a pipe-joined list, each preceded by the
delimiter. -/
def pipeRest : List String → String
  | [] => ""
  | f :: rest => "|" ++ f ++ pipeRest rest

/-- Pipe-joined rendering of an ordered field list, to state the
canonical wire format of the signed payload. -/
def pipeJoined : List String → String
  | [] => ""
  | f :: rest => f ++ pipeRest rest

/-- C4: the string that gets signed is the pipe-delimited encoding of
exactly these fields in this order: protocol version tag ("v2" when a
challenge nonce was received, else "v1"), the session identity (hash of
the public key), the fixed client descriptor (identifier and mode), the
requested role, the capability scopes comma-joined, the signing
timestamp, the caller-supplied token, and — only in the v2 form — the
nonce as the final field; the v1 form has no nonce field. -/
theorem handshake_payload_fields (hashFn : String → String) (pubKey : String)
    (signedAt : Int) (authToken nonce : String) :
    (nonce ≠ "" →
      handshakeSignedPayload hashFn pubKey signedAt authToken nonce =
        pipeJoined (["v2", hashFn pubKey] ++ [wsClientID, wsClientMode] ++
          [wsRole, String.intercalate "," wsScopes, toString signedAt, authToken] ++
          [nonce])) ∧
    (nonce = "" →
      handshakeSignedPayload hashFn pubKey signedAt authToken nonce =
        pipeJoined (["v1", hashFn pubKey] ++ [wsClientID, wsClientMode] ++
          [wsRole, String.intercalate "," wsScopes, toString signedAt, authToken])) := by
  constructor
  · intro h
    have hb : (nonce != "") = true := bne_iff_ne.mpr h
    simp only [handshakeSignedPayload, hb, if_true, pipeJoined, pipeRest,
      List.append_assoc, List.cons_append, List.nil_append,
      String.append_assoc, String.append_empty]
  · intro h
    subst h
    simp only [handshakeSignedPayload, bne_self_eq_false, if_false, Bool.false_eq_true,
      pipeJoined, pipeRest, List.append_assoc, List.cons_append, List.nil_append,
      String.append_assoc, String.append_empty]

/-- Witness for `handshake_payload_fields` with a concrete nonce (v2
form) discharging the non-empty-nonce hypothesis. -/
theorem handshake_payload_fields_witness :
    ("nonce-1" : String) ≠ "" ∧
    handshakeSignedPayload (fun s => "sha256:" ++ s) "pubkey-bytes" 1700000000 "tok"
        "nonce-1" =
      pipeJoined (["v2", (fun s : String => "sha256:" ++ s) "pubkey-bytes"] ++
        [wsClientID, wsClientMode] ++
        [wsRole, String.intercalate "," wsScopes, toString (1700000000 : Int), "tok"] ++
        ["nonce-1"]) :=
  ⟨by decide,
   (handshake_payload_fields (fun s => "sha256:" ++ s) "pubkey-bytes" 1700000000 "tok"
      "nonce-1").1 (by decide)⟩

/-! ## Session transport connection establishment (ws.go) -/

/-- Result of the dial loop of `NewWSClient`: how many dial attempts
were made, which backoff delays (in seconds) were waited before
retries (in order), and how the loop ended. -/
inductive ConnectOutcome where
  | connected (attemptsMade : Nat) (delays : List Nat)
  | cancelledOut (attemptsMade : Nat) (delays : List Nat)
  | failed (attemptsMade : Nat) (delays : List Nat)
deriving Repr

/-- Number of dial attempts the loop performed. -/
def ConnectOutcome.attemptsMade : ConnectOutcome → Nat
  | .connected n _ => n
  | .cancelledOut n _ => n
  | .failed n _ => n

/-- The backoff delays waited before retries, in order. -/
def ConnectOutcome.delays : ConnectOutcome → List Nat
  | .connected _ ds => ds
  | .cancelledOut _ ds => ds
  | .failed _ ds => ds

/-- Whether the loop ended without an established connection. -/
def ConnectOutcome.isFailure : ConnectOutcome → Bool
  | .connected _ _ => false
  | .cancelledOut _ _ => true
  | .failed _ _ => true

/-- Transcription of the retry loop of `NewWSClient` (ws.go): for
`attempt` in `0..maxRetries`, wait the current backoff before every
retry (`attempt > 0`) unless the caller's context is cancelled during
the wait (which ends the loop with a failure), then double the backoff,
capping at 10 seconds, and dial. `dialOk i` abstracts whether
dial-plus-handshake attempt `i` succeeds; `cancel i` whether the
context is cancelled during the wait preceding attempt `i`; `fuel`
counts the remaining loop iterations and `delays` accumulates the
waited delays. -/
def connectRec (dialOk : Nat → Bool) (cancel : Nat → Bool) :
    Nat → Nat → Nat → List Nat → ConnectOutcome
  | attempt, 0, _, delays => .failed attempt delays
  | attempt, fuel + 1, backoff, delays =>
    if attempt = 0 then
      if dialOk attempt then .connected (attempt + 1) delays
      else connectRec dialOk cancel (attempt + 1) fuel backoff delays
    else
      if cancel attempt then .cancelledOut attempt delays
      else
        if dialOk attempt then .connected (attempt + 1) (delays ++ [backoff])
        else
          connectRec dialOk cancel (attempt + 1) fuel
            (if backoff * 2 > 10 then 10 else backoff * 2) (delays ++ [backoff])

/-- `NewWSClient`'s dial loop: `maxRetries = 5` (so 6 loop iterations)
and an initial backoff of 1 second. -/
def newWSClient (dialOk : Nat → Bool) (cancel : Nat → Bool) : ConnectOutcome :=
  connectRec dialOk cancel 0 6 1 []

theorem connectRec_attempts_le (d c : Nat → Bool) :
    ∀ (fuel attempt b : Nat) (ds : List Nat),
      (connectRec d c attempt fuel b ds).attemptsMade ≤ attempt + fuel := by
  intro fuel
  induction fuel with
  | zero =>
    intro attempt b ds
    rw [connectRec]
    simp [ConnectOutcome.attemptsMade]
  | succ n ih =>
    intro attempt b ds
    rw [connectRec]
    split
    · split
      · simp [ConnectOutcome.attemptsMade]
      · have := ih (attempt + 1) b ds
        omega
    · split
      · simp [ConnectOutcome.attemptsMade]
      · split
        · simp [ConnectOutcome.attemptsMade]
        · have := ih (attempt + 1) (if b * 2 > 10 then 10 else b * 2) (ds ++ [b])
          omega

theorem connectRec_delays (d c : Nat → Bool) :
    ∀ (fuel attempt b : Nat) (ds : List Nat),
      attempt + fuel ≤ 6 →
      ds.length = attempt - 1 →
      b = min (2 ^ ds.length) 10 →
      (∀ i, i < ds.length → ds.getD i 0 = min (2 ^ i) 10) →
      (∀ i, i < (connectRec d c attempt fuel b ds).delays.length →
        (connectRec d c attempt fuel b ds).delays.getD i 0 = min (2 ^ i) 10) ∧
      (connectRec d c attempt fuel b ds).delays.length ≤ 5 := by
  intro fuel
  induction fuel with
  | zero =>
    intro attempt b ds hle hlen hb hsched
    rw [connectRec]
    refine ⟨fun i hi => hsched i hi, ?_⟩
    simp only [ConnectOutcome.delays]
    omega
  | succ n ih =>
    intro attempt b ds hle hlen hb hsched
    have hext : ∀ i, i < (ds ++ [b]).length → (ds ++ [b]).getD i 0 = min (2 ^ i) 10 := by
      intro i hi
      simp only [List.length_append, List.length_cons, List.length_nil] at hi
      by_cases hlt : i < ds.length
      · rw [List.getD_append _ _ _ _ hlt]
        exact hsched i hlt
      · have hieq : i = ds.length := by omega
        subst hieq
        rw [List.getD_append_right _ _ _ _ le_rfl]
        simpa using hb
    have hb2 : (if b * 2 > 10 then 10 else b * 2) = min (2 ^ (ds ++ [b]).length) 10 := by
      have hlb : 1 ≤ 2 ^ ds.length := Nat.one_le_two_pow
      have hpow : 2 ^ ((ds ++ [b]).length) = 2 * 2 ^ ds.length := by
        simp [List.length_append, pow_succ, Nat.mul_comm]
      rw [hpow, hb]
      split <;> omega
    rw [connectRec]
    split
    · rename_i h0
      split
      · exact ⟨fun i hi => hsched i hi, by simp only [ConnectOutcome.delays]; omega⟩
      · exact ih (attempt + 1) b ds (by omega) (by omega) hb hsched
    · rename_i h0
      split
      · exact ⟨fun i hi => hsched i hi, by simp only [ConnectOutcome.delays]; omega⟩
      · split
        · refine ⟨fun i hi => ?_, ?_⟩
          · simp only [ConnectOutcome.delays] at hi ⊢
            exact hext i hi
          · simp only [ConnectOutcome.delays, List.length_append, List.length_cons,
              List.length_nil]
            omega
        · refine ih (attempt + 1) _ (ds ++ [b]) (by omega) ?_ hb2 hext
          simp only [List.length_append, List.length_cons, List.length_nil]
          omega

theorem connectRec_connected (d c : Nat → Bool) :
    ∀ (fuel attempt b : Nat) (ds : List Nat) (n : Nat) (ds2 : List Nat),
      connectRec d c attempt fuel b ds = .connected n ds2 →
      (∀ j, j < attempt → d j = false) →
      d (n - 1) = true ∧ ∀ j, j < n - 1 → d j = false := by
  intro fuel
  induction fuel with
  | zero =>
    intro attempt b ds n ds2 heq
    rw [connectRec] at heq
    cases heq
  | succ m ih =>
    intro attempt b ds n ds2 heq hall
    rw [connectRec] at heq
    revert heq
    split
    · split
      · rename_i h0 hd
        intro heq
        cases heq
        refine ⟨by simpa using hd, ?_⟩
        intro j hj
        exact hall j (by omega)
      · rename_i h0 hd
        intro heq
        refine ih (attempt + 1) b ds n ds2 heq ?_
        intro j hj
        by_cases hja : j = attempt
        · subst hja
          simpa using hd
        · exact hall j (by omega)
    · split
      · intro heq
        cases heq
      · split
        · rename_i h0 hc hd
          intro heq
          cases heq
          refine ⟨by simpa using hd, ?_⟩
          intro j hj
          exact hall j (by omega)
        · rename_i h0 hc hd
          intro heq
          refine ih (attempt + 1) _ (ds ++ [b]) n ds2 heq ?_
          intro j hj
          by_cases hja : j = attempt
          · subst hja
            simpa using hd
          · exact hall j (by omega)

theorem connectRec_cancelled (d c : Nat → Bool) :
    ∀ (fuel attempt b : Nat) (ds : List Nat) (n : Nat),
      attempt ≤ n → n < attempt + fuel → 1 ≤ n →
      (∀ j, j < n → d j = false) →
      (∀ m, 1 ≤ m → m < n → c m = false) →
      c n = true →
      (connectRec d c attempt fuel b ds).isFailure = true := by
  intro fuel
  induction fuel with
  | zero =>
    intro attempt b ds n _ _ _ _ _ _
    rw [connectRec]
    rfl
  | succ m ih =>
    intro attempt b ds n han hnf h1 hd hc hcn
    rw [connectRec]
    split
    · rename_i h0
      have hda : d attempt = false := hd attempt (by omega)
      rw [hda]
      simp only [Bool.false_eq_true, if_false]
      exact ih (attempt + 1) b ds n (by omega) (by omega) h1 hd hc hcn
    · rename_i h0
      by_cases han2 : attempt = n
      · subst han2
        rw [hcn]
        simp [ConnectOutcome.isFailure]
      · have hca : c attempt = false := hc attempt (by omega) (by omega)
        have hda : d attempt = false := hd attempt (by omega)
        rw [hca, hda]
        simp only [Bool.false_eq_true, if_false]
        exact ih (attempt + 1) _ (ds ++ [b]) n (by omega) (by omega) h1 hd hc hcn

/-- C5: connection establishment performs at most 6 dial attempts
(1 initial + 5 retries); the delay before retry n (n = 1..5) follows
the exponential schedule 1s, 2s, 4s, 8s, capped at 10s; no further
attempt is made after a successful dial-plus-handshake (all earlier
dials failed, the last one succeeded); and cancellation of the caller's
context during a wait ends the retry loop with a failure. -/
theorem newWSClient_dial_backoff (d c : Nat → Bool) :
    (newWSClient d c).attemptsMade ≤ 6 ∧
    ((∀ i, i < (newWSClient d c).delays.length →
        (newWSClient d c).delays.getD i 0 = min (2 ^ i) 10) ∧
      (newWSClient d c).delays.length ≤ 5) ∧
    (∀ n ds, newWSClient d c = .connected n ds →
      d (n - 1) = true ∧ ∀ j, j < n - 1 → d j = false) ∧
    (∀ n, 1 ≤ n → n ≤ 5 → (∀ j, j < n → d j = false) →
      (∀ m, 1 ≤ m → m < n → c m = false) → c n = true →
      (newWSClient d c).isFailure = true) := by
  refine ⟨connectRec_attempts_le d c 6 0 1 [], ?_, ?_, ?_⟩
  · exact connectRec_delays d c 6 0 1 [] (by omega) rfl rfl (by intro i hi; cases hi)
  · intro n ds heq
    exact connectRec_connected d c 6 0 1 [] n ds heq (by intro j hj; cases hj)
  · intro n h1 h5 hd hc hcn
    exact connectRec_cancelled d c 6 0 1 [] n (by omega) (by omega) h1 hd hc hcn

/-- A dial oracle succeeding on the fourth attempt, for the witness. -/
def demoDial : Nat → Bool := fun i => i == 3

/-- A context that is never cancelled, for the witness. -/
def demoCancel : Nat → Bool := fun _ => false

/-- Witness for `newWSClient_dial_backoff`: with dials failing until
attempt 3, the loop connects on attempt 4 after waiting 1s, 2s, 4s, and
the theorem's success conjunct is discharged at that concrete run. -/
theorem newWSClient_dial_backoff_witness :
    newWSClient demoDial demoCancel = .connected 4 [1, 2, 4] ∧
    (demoDial 3 = true ∧ ∀ j, j < 3 → demoDial j = false) :=
  ⟨rfl, by
    have h := (newWSClient_dial_backoff demoDial demoCancel).2.2.1 4 [1, 2, 4] rfl
    exact ⟨h.1, fun j hj => h.2 j hj⟩⟩

/-! ## Session transport request multiplexing (ws.go) -/

/-- Lookup of the slot registered under a request identifier
(`c.pending[frame.ID]`). Request ids `"tf-<n>"` are represented by the
counter value `n` (the `"tf-%d"` formatting is injective). -/
def lookupReq : List (Nat × Nat) → Nat → Option Nat
  | [], _ => none
  | (i, caller) :: rest, rid => if i = rid then some caller else lookupReq rest rid

/-- Slot removal (`delete(c.pending, id)`), deferred in `WSClient.call`
and so run whatever the call's outcome. -/
def eraseReq : List (Nat × Nat) → Nat → List (Nat × Nat)
  | [], _ => []
  | (i, caller) :: rest, rid =>
    if i = rid then eraseReq rest rid else (i, caller) :: eraseReq rest rid

/-- State of the multiplexing discipline of one connection
(`WSClient`): the atomic request-id counter (`nextID`), the registered
delivery slots (`pending`: request id ↦ waiting caller), the history of
all (caller, id) assignments made by `call`, and every (caller, frame
id) handed to a caller's slot by the read pump. -/
structure MuxState where
  counter : Nat
  pending : List (Nat × Nat)
  started : List (Nat × Nat)
  delivered : List (Nat × Nat)
deriving Repr

/-- Events of one connection, in the order they win the relevant lock:
`start caller` is `WSClient.call` generating a fresh id and registering
its slot; `res rid` is the read pump routing an inbound response frame
with identifier `rid` to the registered slot (dropped when none);
`finish rid` is the deferred slot removal when a call completes
(response received, deadline expired, or connection closed). -/
inductive MuxEvent where
  | start (caller : Nat)
  | res (rid : Nat)
  | finish (rid : Nat)
deriving Repr

/-- One step of the multiplexing discipline: transcription of the
id-generation/registration prologue of `WSClient.call`, the response
routing of `WSClient.readPump`, and the deferred unregistration of
`WSClient.call`. -/
def muxStep (s : MuxState) : MuxEvent → MuxState
  | .start caller =>
    { counter := s.counter + 1,
      pending := (s.counter + 1, caller) :: s.pending,
      started := (caller, s.counter + 1) :: s.started,
      delivered := s.delivered }
  | .res rid =>
    match lookupReq s.pending rid with
    | some caller => { s with delivered := (caller, rid) :: s.delivered }
    | none => s
  | .finish rid => { s with pending := eraseReq s.pending rid }

/-- The initial state of a fresh connection. -/
def muxInit : MuxState :=
  { counter := 0, pending := [], started := [], delivered := [] }

/-- The state after an arbitrary interleaving of call starts, response
arrivals, and call completions on one connection. -/
def muxRun (evs : List MuxEvent) : MuxState := evs.foldl muxStep muxInit

/-- Invariant of the multiplexing discipline: every registered slot and
every delivery corresponds to a recorded (caller, id) assignment, all
assigned ids are bounded by the counter, and the assignment history
(newest first) carries strictly decreasing ids. -/
def MuxInv (s : MuxState) : Prop :=
  (∀ e ∈ s.pending, (e.2, e.1) ∈ s.started) ∧
  (∀ e ∈ s.delivered, e ∈ s.started) ∧
  (∀ e ∈ s.started, e.2 ≤ s.counter) ∧
  (s.started.map Prod.snd).Pairwise (· > ·)

theorem lookupReq_mem {l : List (Nat × Nat)} {rid caller : Nat}
    (h : lookupReq l rid = some caller) : (rid, caller) ∈ l := by
  induction l with
  | nil => simp [lookupReq] at h
  | cons hd tl ih =>
    obtain ⟨i, cb⟩ := hd
    by_cases hi : i = rid
    · subst hi
      simp [lookupReq] at h
      subst h
      exact List.mem_cons_self _ _
    · simp only [lookupReq, if_neg hi] at h
      exact List.mem_cons_of_mem _ (ih h)

theorem mem_of_mem_eraseReq {l : List (Nat × Nat)} {rid : Nat} {e : Nat × Nat}
    (h : e ∈ eraseReq l rid) : e ∈ l := by
  induction l with
  | nil => simp [eraseReq] at h
  | cons hd tl ih =>
    obtain ⟨i, cb⟩ := hd
    by_cases hi : i = rid
    · subst hi
      simp only [eraseReq, if_pos rfl] at h
      exact List.mem_cons_of_mem _ (ih h)
    · simp only [eraseReq, if_neg hi] at h
      rcases List.mem_cons.mp h with h | h
      · exact h ▸ List.mem_cons_self _ _
      · exact List.mem_cons_of_mem _ (ih h)

theorem lookupReq_eraseReq_self (l : List (Nat × Nat)) (rid : Nat) :
    lookupReq (eraseReq l rid) rid = none := by
  induction l with
  | nil => simp [eraseReq, lookupReq]
  | cons hd tl ih =>
    obtain ⟨i, cb⟩ := hd
    by_cases hi : i = rid
    · subst hi
      simp only [eraseReq, if_pos rfl]
      exact ih
    · simp only [eraseReq, if_neg hi, lookupReq, ih, if_neg hi]

theorem muxInv_init : MuxInv muxInit := by
  refine ⟨?_, ?_, ?_, ?_⟩ <;> simp [muxInit, MuxInv]

theorem muxInv_step {s : MuxState} (inv : MuxInv s) (ev : MuxEvent) :
    MuxInv (muxStep s ev) := by
  obtain ⟨hp, hd, hc, hpair⟩ := inv
  cases ev with
  | start caller =>
    refine ⟨?_, ?_, ?_, ?_⟩
    · intro e he
      rcases List.mem_cons.mp he with h | h
      · subst h
        exact List.mem_cons_self _ _
      · exact List.mem_cons_of_mem _ (hp e h)
    · intro e he
      exact List.mem_cons_of_mem _ (hd e he)
    · intro e he
      rcases List.mem_cons.mp he with h | h
      · subst h
        exact le_rfl
      · exact Nat.le_succ_of_le (hc e h)
    · refine List.Pairwise.cons ?_ hpair
      intro j hj
      rcases List.mem_map.mp hj with ⟨e, he, rfl⟩
      exact Nat.lt_succ_of_le (hc e he)
  | res rid =>
    simp only [muxStep]
    cases hl : lookupReq s.pending rid with
    | none => exact ⟨hp, hd, hc, hpair⟩
    | some caller =>
      refine ⟨hp, ?_, hc, hpair⟩
      intro e he
      rcases List.mem_cons.mp he with h | h
      · subst h
        exact hp _ (lookupReq_mem hl)
      · exact hd e h
  | finish rid =>
    exact ⟨fun e he => hp e (mem_of_mem_eraseReq he), hd, hc, hpair⟩

theorem muxInv_run (evs : List MuxEvent) : MuxInv (muxRun evs) := by
  suffices h : ∀ s, MuxInv s → MuxInv (evs.foldl muxStep s) from h muxInit muxInv_init
  induction evs with
  | nil => exact fun s hs => hs
  | cons ev rest ih =>
    intro s hs
    exact ih (muxStep s ev) (muxInv_step hs ev)

theorem started_id_unique {l : List (Nat × Nat)}
    (hpair : (l.map Prod.snd).Pairwise (· > ·)) {c c' i : Nat}
    (h1 : (c, i) ∈ l) (h2 : (c', i) ∈ l) : c = c' := by
  induction l with
  | nil => cases h1
  | cons hd tl ih =>
    simp only [List.map_cons, List.pairwise_cons] at hpair
    rcases List.mem_cons.mp h1 with ha | ha <;> rcases List.mem_cons.mp h2 with hb | hb
    · rw [← hb] at ha
      exact (Prod.mk.injEq _ _ _ _).mp ha |>.1
    · exfalso
      have : hd.2 > i := hpair.1 i (List.mem_map.mpr ⟨_, hb, rfl⟩)
      rw [← ha] at this
      exact lt_irrefl _ this
    · exfalso
      have : hd.2 > i := hpair.1 i (List.mem_map.mpr ⟨_, ha, rfl⟩)
      rw [← hb] at this
      exact lt_irrefl _ this
    · exact ih hpair.2 ha hb

/-- C6: on one connection, a response frame is only ever handed to the
caller whose own request generated the matching identifier — every
delivery (caller, id) is one of the recorded id assignments, the
assignment ids are unique and strictly increase in generation order (so
no two callers ever share an id, whatever the arrival order of
responses), and completing a call removes its delivery slot whatever
the outcome. -/
theorem wsCall_correlation (evs : List MuxEvent) :
    (∀ c i, (c, i) ∈ (muxRun evs).delivered → (c, i) ∈ (muxRun evs).started) ∧
    (∀ c c' i, (c, i) ∈ (muxRun evs).started → (c', i) ∈ (muxRun evs).started →
      c = c') ∧
    ((muxRun evs).started.map Prod.snd).Pairwise (· > ·) ∧
    (∀ rid, lookupReq (muxRun (evs ++ [.finish rid])).pending rid = none) := by
  obtain ⟨hp, hd, hc, hpair⟩ := muxInv_run evs
  refine ⟨fun c i h => hd (c, i) h, fun c c' i h1 h2 => started_id_unique hpair h1 h2,
    hpair, ?_⟩
  intro rid
  have : muxRun (evs ++ [MuxEvent.finish rid]) = muxStep (muxRun evs) (.finish rid) := by
    simp [muxRun, List.foldl_append]
  rw [this]
  exact lookupReq_eraseReq_self _ _

/-- A concrete interleaving for the witness: two calls start, their
responses arrive in the opposite order, both calls complete. -/
def demoTrace : List MuxEvent :=
  [.start 100, .start 200, .res 2, .res 1, .finish 2, .finish 1]

/-- Witness for `wsCall_correlation`: in the out-of-order trace, the
delivery of frame 1 went to caller 100, which is exactly the caller
that generated id 1; and finishing a call unregisters its slot. -/
theorem wsCall_correlation_witness :
    ((100, 1) ∈ (muxRun demoTrace).delivered ∧ (100, 1) ∈ (muxRun demoTrace).started) ∧
    lookupReq (muxRun (demoTrace ++ [.finish 2])).pending 2 = none :=
  ⟨⟨by decide, (wsCall_correlation demoTrace).1 100 1 (by decide)⟩,
   (wsCall_correlation demoTrace).2.2.2 2⟩
